import Mathlib

/- Shallow embedding of the python-chem repository (chemical_compound.py,
reaction.py, chem_calculator.py).  Python floats are modelled as exact
rationals (ℚ), Python dicts as insertion-ordered association lists with
unique keys (`CDict`), and Python exceptions as `Except` results.  Compound
objects used as dict keys are modelled by an abstract key type `α` with
decidable equality (Python keys them by object identity). -/

namespace PyChem

/-- A Python dict: insertion-ordered key/value pairs. -/
abbrev CDict (α β : Type) : Type := List (α × β)

variable {α β γ : Type}

/-- Python `d[k]` (as an option): the first binding of key `k`. -/
def dlookup [DecidableEq α] : CDict α β → α → Option β
  | [], _ => none
  | (k, v) :: rest, a => if k = a then some v else dlookup rest a

/-- Python `d.get(k, dflt)`. -/
def dgetD [DecidableEq α] (d : CDict α β) (a : α) (dflt : β) : β :=
  (dlookup d a).getD dflt

/-- Python `d[k] = v`: overwrite the binding in place, or append a fresh key. -/
def dinsert [DecidableEq α] : CDict α β → α → β → CDict α β
  | [], a, b => [(a, b)]
  | (k, v) :: rest, a, b => if k = a then (a, b) :: rest else (k, v) :: dinsert rest a b

/-- Python `list(d.keys())`. -/
def dkeys (d : CDict α β) : List α := d.map Prod.fst

theorem dkeys_nil : dkeys ([] : CDict α β) = [] := rfl

theorem dkeys_cons (k : α) (v : β) (rest : CDict α β) :
    dkeys ((k, v) :: rest) = k :: dkeys rest := rfl

theorem dkeys_map_self (l : List α) (f : α → β) :
    dkeys (l.map (fun x => (x, f x))) = l := by
  induction l with
  | nil => rfl
  | cons x rest ih => simp only [List.map_cons, dkeys_cons] at ih ⊢; rw [ih]

theorem dkeys_map_value (l : CDict α β) (f : β → γ) :
    dkeys (l.map (fun p => (p.1, f p.2))) = dkeys l := by
  induction l with
  | nil => rfl
  | cons p rest ih =>
    obtain ⟨k, v⟩ := p
    simp only [List.map_cons, dkeys_cons] at ih ⊢
    rw [ih]

section DictLemmas

variable [DecidableEq α]

theorem dlookup_nil (a : α) : dlookup ([] : CDict α β) a = none := rfl

theorem dlookup_cons (k : α) (v : β) (rest : CDict α β) (a : α) :
    dlookup ((k, v) :: rest) a = if k = a then some v else dlookup rest a := rfl

theorem dlookup_isSome_iff_mem_dkeys (d : CDict α β) (a : α) :
    (dlookup d a).isSome = true ↔ a ∈ dkeys d := by
  induction d with
  | nil => simp [dlookup, dkeys_nil]
  | cons p rest ih =>
    obtain ⟨k, v⟩ := p
    rw [dlookup_cons, dkeys_cons, List.mem_cons]
    by_cases h : k = a
    · subst h
      simp
    · rw [if_neg h, ih]
      constructor
      · exact fun hm => Or.inr hm
      · rintro (h1 | h1)
        · exact absurd h1.symm h
        · exact h1

theorem dlookup_eq_none_of_not_mem {d : CDict α β} {a : α} (h : a ∉ dkeys d) :
    dlookup d a = none := by
  have hns := (dlookup_isSome_iff_mem_dkeys d a).not.mpr h
  cases hd : dlookup d a with
  | none => rfl
  | some b => exact absurd (by simp [hd]) hns

theorem dlookup_eq_some_dgetD_of_mem {d : CDict α β} {a : α} (h : a ∈ dkeys d) (dflt : β) :
    dlookup d a = some (dgetD d a dflt) := by
  have hs := (dlookup_isSome_iff_mem_dkeys d a).mpr h
  cases hd : dlookup d a with
  | none => rw [hd] at hs; simp at hs
  | some b => simp [dgetD, hd]

theorem dgetD_of_not_mem {d : CDict α β} {a : α} (h : a ∉ dkeys d) (dflt : β) :
    dgetD d a dflt = dflt := by
  simp [dgetD, dlookup_eq_none_of_not_mem h]

theorem dlookup_map_self {l : List α} {f : α → β} {a : α} (h : a ∈ l) :
    dlookup (l.map (fun x => (x, f x))) a = some (f a) := by
  induction l with
  | nil => simp at h
  | cons x rest ih =>
    rw [List.map_cons, dlookup_cons]
    by_cases hx : x = a
    · subst hx; simp
    · rcases List.mem_cons.mp h with h1 | h2
      · exact absurd h1.symm hx
      · simp [hx, ih h2]

theorem dlookup_map_self_not_mem {l : List α} {f : α → β} {a : α} (h : a ∉ l) :
    dlookup (l.map (fun x => (x, f x))) a = none := by
  induction l with
  | nil => rfl
  | cons x rest ih =>
    rw [List.map_cons, dlookup_cons]
    have hx : ¬ x = a := fun hxa => h (by rw [hxa]; exact List.mem_cons_self a rest)
    have hrest : a ∉ rest := fun hc => h (List.mem_cons_of_mem x hc)
    simp [hx, ih hrest]

theorem dgetD_map_self {l : List α} {f : α → β} {a : α} (h : a ∈ l) (dflt : β) :
    dgetD (l.map (fun x => (x, f x))) a dflt = f a := by
  simp [dgetD, dlookup_map_self h]

theorem dlookup_dinsert (d : CDict α β) (a : α) (b : β) (c : α) :
    dlookup (dinsert d a b) c = if a = c then some b else dlookup d c := by
  induction d with
  | nil => simp [dinsert, dlookup]
  | cons p rest ih =>
    obtain ⟨k, v⟩ := p
    by_cases hk : k = a
    · subst hk
      by_cases hc : k = c
      · subst hc; simp [dinsert, dlookup]
      · simp [dinsert, dlookup, hc]
    · have hd : dinsert ((k, v) :: rest) a b = (k, v) :: dinsert rest a b := by
        simp [dinsert, hk]
      rw [hd, dlookup_cons, dlookup_cons, ih]
      by_cases hkc : k = c
      · have hac : ¬ a = c := fun h2 => hk (hkc.trans h2.symm)
        rw [if_pos hkc, if_neg hac, if_pos hkc]
      · rw [if_neg hkc]
        by_cases hac : a = c
        · rw [if_pos hac, if_pos hac]
        · rw [if_neg hac, if_neg hac, if_neg hkc]

theorem dkeys_dinsert (d : CDict α β) (a : α) (b : β) :
    dkeys (dinsert d a b) = if a ∈ dkeys d then dkeys d else dkeys d ++ [a] := by
  induction d with
  | nil => simp [dinsert, dkeys]
  | cons p rest ih =>
    obtain ⟨k, v⟩ := p
    by_cases hk : k = a
    · subst hk
      have hmem : k ∈ dkeys ((k, v) :: rest) := by
        rw [dkeys_cons]; exact List.mem_cons_self k (dkeys rest)
      rw [if_pos hmem]
      simp [dinsert, dkeys_cons]
    · have hak : ¬ a = k := fun hc => hk hc.symm
      have hd : dinsert ((k, v) :: rest) a b = (k, v) :: dinsert rest a b := by
        simp [dinsert, hk]
      rw [hd, dkeys_cons, dkeys_cons, ih]
      by_cases hmem : a ∈ dkeys rest
      · rw [if_pos hmem, if_pos (List.mem_cons_of_mem k hmem)]
      · rw [if_neg hmem,
          if_neg (by rw [List.mem_cons]; push_neg; exact ⟨hak, hmem⟩)]
        rw [List.cons_append]

theorem mem_dkeys_dinsert (d : CDict α β) (a : α) (b : β) (c : α) :
    c ∈ dkeys (dinsert d a b) ↔ c ∈ dkeys d ∨ c = a := by
  rw [dkeys_dinsert]
  by_cases hmem : a ∈ dkeys d
  · simp only [hmem, if_true]
    constructor
    · exact Or.inl
    · rintro (h | h)
      · exact h
      · rw [h]; exact hmem
  · simp [hmem]

theorem dkeys_dinsert_nodup {d : CDict α β} (h : (dkeys d).Nodup) (a : α) (b : β) :
    (dkeys (dinsert d a b)).Nodup := by
  rw [dkeys_dinsert]
  by_cases hmem : a ∈ dkeys d
  · simpa [hmem] using h
  · rw [if_neg hmem, List.nodup_append]
    refine ⟨h, List.nodup_singleton a, ?_⟩
    intro x hx hx2
    rw [List.mem_singleton] at hx2
    rw [hx2] at hx
    exact hmem hx

theorem dlookup_map_value (l : CDict α β) (f : β → γ) (a : α) :
    dlookup (l.map (fun p => (p.1, f p.2))) a = (dlookup l a).map f := by
  induction l with
  | nil => rfl
  | cons p rest ih =>
    obtain ⟨k, v⟩ := p
    rw [List.map_cons]
    by_cases hk : k = a
    · subst hk; simp [dlookup_cons]
    · simp [dlookup_cons, hk, ih]

end DictLemmas

section FoldInsert

variable [DecidableEq α]

theorem mem_dkeys_foldl_dinsert (l : CDict α β) (d : CDict α β) (c : α) :
    c ∈ dkeys (l.foldl (fun d p => dinsert d p.1 p.2) d) ↔ c ∈ dkeys d ∨ c ∈ dkeys l := by
  induction l generalizing d with
  | nil => simp [dkeys_nil]
  | cons p rest ih =>
    obtain ⟨k, v⟩ := p
    simp only [List.foldl_cons]
    rw [ih, mem_dkeys_dinsert, dkeys_cons, List.mem_cons]
    tauto

theorem dkeys_foldl_dinsert_nodup (l : CDict α β) {d : CDict α β} (h : (dkeys d).Nodup) :
    (dkeys (l.foldl (fun d p => dinsert d p.1 p.2) d)).Nodup := by
  induction l generalizing d with
  | nil => exact h
  | cons p rest ih => exact ih (dkeys_dinsert_nodup h p.1 p.2)

theorem dlookup_foldl_dinsert_of_not_mem {l : CDict α β} (d : CDict α β) {c : α}
    (h : c ∉ dkeys l) :
    dlookup (l.foldl (fun d p => dinsert d p.1 p.2) d) c = dlookup d c := by
  induction l generalizing d with
  | nil => rfl
  | cons p rest ih =>
    obtain ⟨k, v⟩ := p
    rw [dkeys_cons, List.mem_cons] at h
    push_neg at h
    simp only [List.foldl_cons]
    rw [ih _ h.2, dlookup_dinsert]
    rw [if_neg (fun hc : k = c => h.1 hc.symm)]

theorem dlookup_foldl_dinsert_of_mem {l : CDict α β} (d : CDict α β)
    (hnd : (dkeys l).Nodup) {c : α} (h : c ∈ dkeys l) :
    dlookup (l.foldl (fun d p => dinsert d p.1 p.2) d) c = dlookup l c := by
  induction l generalizing d with
  | nil => simp [dkeys_nil] at h
  | cons p rest ih =>
    obtain ⟨k, v⟩ := p
    rw [dkeys_cons, List.nodup_cons] at hnd
    simp only [List.foldl_cons]
    by_cases hk : k = c
    · subst hk
      rw [dlookup_foldl_dinsert_of_not_mem _ hnd.1, dlookup_dinsert]
      simp [dlookup_cons]
    · have hc : c ∈ dkeys rest := by
        rcases List.mem_cons.mp (by rwa [dkeys_cons] at h) with h1 | h1
        · exact absurd h1.symm hk
        · exact h1
      rw [ih _ hnd.2 hc, dlookup_cons]
      simp [hk]

end FoldInsert

/- ---------------------------------------------------------------------
chemical_compound.py
--------------------------------------------------------------------- -/

/-- The error taxonomy of the spec (section 7).  `UnknownElementError` is the
`ValueError` raised by `calculate_molar_mass` for a non-alphabetic element
token; `EmptySystemError` is the `ValueError` raised by
`ChemicalCalculator.simulate_reactions` when no reactions are defined. -/
inductive ChemError : Type where
  | EmptySystemError : ChemError
  | UnknownElementError : String → ChemError
deriving DecidableEq

/-- The fixed lookup table of `calculate_molar_mass` (g/mol), decimals exact. -/
def atomic_masses : CDict String ℚ :=
  [("H", 1008/1000), ("He", 4003/1000), ("Li", 694/100), ("Be", 9012/1000),
   ("B", 1081/100), ("C", 1201/100), ("N", 1401/100), ("O", 16),
   ("F", 19), ("Ne", 2018/100), ("Na", 2299/100), ("Mg", 2431/100),
   ("Al", 2698/100), ("Si", 2809/100), ("P", 3097/100), ("S", 3206/100),
   ("Cl", 3545/100), ("Ar", 3995/100), ("K", 3910/100), ("Ca", 4008/100),
   ("I", 12690/100)]

/-- Python `str.isalpha()` (restricted to ASCII, as chemical formulas are). -/
def pyIsAlpha (s : String) : Bool :=
  ¬ s.data.isEmpty && s.data.all Char.isAlpha

/-- Python `int(s)` on a string of decimal digits. -/
def digitsVal (l : List Char) : ℕ :=
  l.foldl (fun acc c => acc * 10 + (c.toNat - Char.toNat (Char.ofNat 48))) 0

theorem length_dropWhile_le (p : α → Bool) (l : List α) :
    (l.dropWhile p).length ≤ l.length := by
  induction l with
  | nil => simp
  | cons x rest ih =>
    rw [List.dropWhile_cons]
    by_cases h : p x = true
    · simp only [h, if_true]
      exact Nat.le_trans ih (Nat.le_succ _)
    · simp [h]

/-- `re.findall(r'([A-Z][a-z]?)(\d*)', formula)` with the count already
converted by `count = int(count) if count else 1`: scan left to right; a
match starts at an uppercase letter, takes an optional lowercase letter and
then a greedy (possibly empty) run of digits; characters that cannot start a
match are skipped. -/
def scanFormula : List Char → List (String × ℕ)
  | [] => []
  | ch :: rest =>
    if ch.isUpper then
      match rest with
      | [] => [(String.singleton ch, 1)]
      | c2 :: rest2 =>
        if c2.isLower then
          (⟨[ch, c2]⟩,
            if (rest2.takeWhile Char.isDigit).isEmpty then 1
            else digitsVal (rest2.takeWhile Char.isDigit)) ::
            scanFormula (rest2.dropWhile Char.isDigit)
        else
          (String.singleton ch,
            if ((c2 :: rest2).takeWhile Char.isDigit).isEmpty then 1
            else digitsVal ((c2 :: rest2).takeWhile Char.isDigit)) ::
            scanFormula ((c2 :: rest2).dropWhile Char.isDigit)
    else scanFormula rest
termination_by l => l.length
decreasing_by
  · have h1 := length_dropWhile_le Char.isDigit rest2
    simp only [List.length_cons]
    omega
  · have h1 := length_dropWhile_le Char.isDigit (c2 :: rest2)
    simp only [List.length_cons] at h1 ⊢
    omega
  · simp only [List.length_cons]
    omega

/-- `ChemicalCompound._parse_formula`: build the composition dict from the
regex matches (a repeated element silently overwrites the earlier entry). -/
def parse_formula (formula : String) : CDict String ℕ :=
  (scanFormula formula.data).foldl (fun d p => dinsert d p.1 p.2) []

/-- A `ChemicalCompound` after `__init__` has run. -/
structure ChemicalCompound : Type where
  formula : String
  name : String
  molar_mass : Option ℚ
  composition : CDict String ℕ
deriving DecidableEq

/-- `ChemicalCompound.__init__(formula, name=None, molar_mass=None)`:
`self.name = name or formula`, then `self._parse_formula()`. -/
def ChemicalCompound.init (formula : String) (name : Option String)
    (molar_mass : Option ℚ) : ChemicalCompound :=
  { formula := formula
    name := name.getD formula
    molar_mass := molar_mass
    composition := parse_formula formula }

/-- The `total_mass` summation loop of `calculate_molar_mass`: a listed
element contributes `atomic_masses[element] * count`, an unlisted alphabetic
element contributes the default `100.0 * count`, and a non-alphabetic
element raises `ValueError` (modelled as `UnknownElementError`). -/
def sumMasses : CDict String ℕ → ℚ → Except ChemError ℚ
  | [], acc => .ok acc
  | (el, cnt) :: rest, acc =>
    match dlookup atomic_masses el with
    | some m => sumMasses rest (acc + m * cnt)
    | none =>
      if pyIsAlpha el then sumMasses rest (acc + 100 * cnt)
      else .error (.UnknownElementError el)

/-- `ChemicalCompound.calculate_molar_mass`: return the cached/supplied mass
if present; otherwise the generic-compound branch (single one-letter element
not in the table) yields the fixed default 100.0 and caches it; otherwise
sum the table masses over the composition and cache the total.  The nested
Python `if len(composition) == 1 and len(key) == 1:` / `if element not in
atomic_masses and element.isalpha():` is flattened into one conjunction
(identical control flow: every failing case falls through to the sum). -/
def ChemicalCompound.calculate_molar_mass (c : ChemicalCompound) :
    Except ChemError (ℚ × ChemicalCompound) :=
  match c.molar_mass with
  | some m => .ok (m, c)
  | none =>
    if c.composition.length = 1 ∧
        ((dkeys c.composition).getD 0 "").length = 1 ∧
        dlookup atomic_masses ((dkeys c.composition).getD 0 "") = none ∧
        pyIsAlpha ((dkeys c.composition).getD 0 "") = true then
      .ok (100, { c with molar_mass := some 100 })
    else
      match sumMasses c.composition 0 with
      | .ok total => .ok (total, { c with molar_mass := some total })
      | .error e => .error e

/- ---------------------------------------------------------------------
reaction.py
--------------------------------------------------------------------- -/

/-- A `Reaction`: reactant/product coefficient dicts (Python `int` values),
rate constant, and the unused `reaction_order`.  The compound key type is
abstract (`α`). -/
structure Reaction (α : Type) : Type where
  reactants : CDict α Int
  products : CDict α Int
  rate_constant : ℚ
  reaction_order : Int := 1

variable {α : Type}

/-- The loop of `Reaction.calculate_rate`: starting from `rate =
rate_constant`, multiply by `concentrations[compound] ** coeff` for each
reactant in order, returning `0.0` as soon as a reactant is absent. -/
def rateGo [DecidableEq α] (concentrations : CDict α ℚ) : ℚ → CDict α Int → ℚ
  | rate, [] => rate
  | rate, (compound, coeff) :: rest =>
    match dlookup concentrations compound with
    | some concentration => rateGo concentrations (rate * concentration ^ coeff) rest
    | none => 0

/-- `Reaction.calculate_rate(concentrations)`. -/
def Reaction.calculate_rate [DecidableEq α] (r : Reaction α)
    (concentrations : CDict α ℚ) : ℚ :=
  rateGo concentrations r.rate_constant r.reactants

/-- `Reaction.get_stoichiometry_matrix()`: insert `-coeff` for every
reactant, then `+coeff` for every product (a compound on both sides is
silently overwritten by the product entry). -/
def Reaction.get_stoichiometry_matrix [DecidableEq α] (r : Reaction α) : CDict α Int :=
  let stoichiometry :=
    r.reactants.foldl (fun d p => dinsert d p.1 (-p.2)) ([] : CDict α Int)
  r.products.foldl (fun d p => dinsert d p.1 p.2) stoichiometry

/-- A `ReactionSystem`: the ordered list of reactions. -/
structure ReactionSystem (α : Type) : Type where
  reactions : List (Reaction α)

/-- `self.all_compounds.update(...)`: Python's set, modelled as an
insertion-ordered duplicate-free list. -/
def addCompound [DecidableEq α] (acc : List α) (c : α) : List α :=
  if c ∈ acc then acc else acc ++ [c]

/-- The derived compound set of `ReactionSystem.__init__`: the union of the
reactant and product keys of every reaction. -/
def ReactionSystem.all_compounds [DecidableEq α] (sys : ReactionSystem α) : List α :=
  sys.reactions.foldl
    (fun acc r => (dkeys r.reactants ++ dkeys r.products).foldl addCompound acc) []

/-- The `rate_changes` accumulation of `ReactionSystem.simulate`: start from
`{compound: 0.0 for compound in all_compounds}` and, for every reaction,
add `stoich_coeff * reaction_rate` to the entry of each compound in its
stoichiometry matrix (those keys are always already present). -/
def computeRateChanges [DecidableEq α] (sys : ReactionSystem α)
    (current_conc : CDict α ℚ) : CDict α ℚ :=
  sys.reactions.foldl
    (fun rate_changes r =>
      (r.get_stoichiometry_matrix).foldl
        (fun rc p => dinsert rc p.1 (dgetD rc p.1 0 + (p.2 : ℚ) * r.calculate_rate current_conc))
        rate_changes)
    (sys.all_compounds.map (fun compound => (compound, (0 : ℚ))))

/-- `current_conc = {compound: concentrations[compound][-1] for compound in
all_compounds}`: the last entry of each trajectory. -/
def lastState [DecidableEq α] (sys : ReactionSystem α)
    (concentrations : CDict α (List ℚ)) : CDict α ℚ :=
  sys.all_compounds.map (fun compound => (compound, (dgetD concentrations compound []).getLastD 0))

/-- One iteration of the Euler loop of `ReactionSystem.simulate`: append
`max(0.0, current + rate_change * dt)` to every compound's trajectory. -/
def stepConcs [DecidableEq α] (sys : ReactionSystem α)
    (concentrations : CDict α (List ℚ)) (dt : ℚ) : CDict α (List ℚ) :=
  sys.all_compounds.map (fun compound =>
    (compound,
      dgetD concentrations compound [] ++
        [max 0 (dgetD (lastState sys concentrations) compound 0 +
                dgetD (computeRateChanges sys (lastState sys concentrations)) compound 0 * dt)]))

/-- The `for i in range(1, len(time_points))` loop, threaded over the
remaining time points with the previous time point. -/
def simLoop [DecidableEq α] (sys : ReactionSystem α) :
    CDict α (List ℚ) → ℚ → List ℚ → CDict α (List ℚ)
  | concentrations, _, [] => concentrations
  | concentrations, tprev, t :: rest =>
    simLoop sys (stepConcs sys concentrations (t - tprev)) t rest

/-- `ReactionSystem.simulate(initial_concentrations, time_points)`. -/
def ReactionSystem.simulate [DecidableEq α] (sys : ReactionSystem α)
    (initial_concentrations : CDict α ℚ) (time_points : List ℚ) : CDict α (List ℚ) :=
  let concentrations :=
    sys.all_compounds.map (fun compound => (compound, [dgetD initial_concentrations compound 0]))
  match time_points with
  | [] => concentrations
  | t0 :: rest => simLoop sys concentrations t0 rest

/- ---------------------------------------------------------------------
chem_calculator.py (the orchestrator boundary used by claim C6)
--------------------------------------------------------------------- -/

/-- A `ChemicalCalculator`: `self.compounds` maps a formula to the compound
and its initial concentration; `self.reactions` is the reaction list. -/
structure ChemicalCalculator : Type where
  compounds : CDict String (ChemicalCompound × ℚ)
  reactions : List (Reaction ChemicalCompound)

/-- `np.linspace(start, stop, num).tolist()` in exact arithmetic. -/
def linspace (start stop : ℚ) (num : ℕ) : List ℚ :=
  if num = 0 then []
  else if num = 1 then [start]
  else (List.range num).map (fun i => start + (stop - start) * i / (num - 1))

/-- `ChemicalCalculator.simulate_reactions(time_end, time_steps)`: raise
(`EmptySystemError`, a `ValueError` in the source) when no reactions are
defined, before any time point is computed; otherwise build the time grid
and the initial concentrations and run `ReactionSystem.simulate`. -/
def ChemicalCalculator.simulate_reactions (calculator : ChemicalCalculator)
    (time_end : ℚ) (time_steps : ℕ) :
    Except ChemError (List ℚ × CDict ChemicalCompound (List ℚ)) :=
  if calculator.reactions.isEmpty then .error .EmptySystemError
  else
    let time_points := linspace 0 time_end time_steps
    let initial_concentrations :=
      calculator.compounds.map (fun p => (p.2.1, p.2.2))
    let reaction_system : ReactionSystem ChemicalCompound := ⟨calculator.reactions⟩
    .ok (time_points, reaction_system.simulate initial_concentrations time_points)

/- ---------------------------------------------------------------------
The forward-Euler reference of the spec (section 4.3), transcribed from the
spec pseudocode.  These definitions are the spec side of claim C1 and are
compared with `ReactionSystem.simulate` above.
--------------------------------------------------------------------- -/

/-- Spec: `delta[c] = Σ over reactions r of net_coeff(r, c) * rate(r)`, the
net coefficient read from `r.get_stoichiometry_matrix()` (0 when `c` is not
touched by `r`). -/
def sumRateChange [DecidableEq α] (sys : ReactionSystem α) (cur : CDict α ℚ) (c : α) : ℚ :=
  (sys.reactions.map
    (fun r => ((dgetD r.get_stoichiometry_matrix c 0 : Int) : ℚ) * r.calculate_rate cur)).sum

/-- Spec: `conc[c][0] = initial_concentrations.get(c, 0.0)`. -/
def state0 [DecidableEq α] (sys : ReactionSystem α) (initial : CDict α ℚ) : CDict α ℚ :=
  sys.all_compounds.map (fun c => (c, dgetD initial c 0))

/-- Spec: `conc[c][i] = max(0.0, conc[c][i-1] + delta[c] * dt)`. -/
def nextState [DecidableEq α] (sys : ReactionSystem α) (cur : CDict α ℚ) (dt : ℚ) : CDict α ℚ :=
  sys.all_compounds.map (fun c => (c, max 0 (dgetD cur c 0 + sumRateChange sys cur c * dt)))

/-- The reference states after the first: one `nextState` per remaining time
point, each with `dt = time_points[i] - time_points[i-1]`. -/
def statesFrom [DecidableEq α] (sys : ReactionSystem α) :
    CDict α ℚ → ℚ → List ℚ → List (CDict α ℚ)
  | _, _, [] => []
  | cur, tprev, t :: rest =>
    nextState sys cur (t - tprev) :: statesFrom sys (nextState sys cur (t - tprev)) t rest

/-- The reference concentration state at every time point. -/
def refStates [DecidableEq α] (sys : ReactionSystem α) (initial : CDict α ℚ) :
    List ℚ → List (CDict α ℚ)
  | [] => []
  | t0 :: rest => state0 sys initial :: statesFrom sys (state0 sys initial) t0 rest

/-- The concentrations mapping at step `j`, read back from a simulation
result: one entry per compound, in compound-set order (the pseudocode's
`current`). -/
def trajStateAt [DecidableEq α] (sys : ReactionSystem α)
    (result : CDict α (List ℚ)) (j : ℕ) : CDict α ℚ :=
  sys.all_compounds.map (fun c => (c, (dgetD result c []).getD j 0))

/- ---------------------------------------------------------------------
Lemmas about calculate_rate
--------------------------------------------------------------------- -/

section RateLemmas

variable [DecidableEq α]

theorem rateGo_all_present (conc : CDict α ℚ) (l : CDict α Int)
    (h : ∀ p ∈ l, (dlookup conc p.1).isSome = true) :
    ∀ rate : ℚ, rateGo conc rate l = rate * (l.map (fun p => dgetD conc p.1 0 ^ p.2)).prod := by
  induction l with
  | nil => intro rate; simp [rateGo]
  | cons p rest ih =>
    intro rate
    obtain ⟨cmpd, coeff⟩ := p
    have hp := h (cmpd, coeff) (List.mem_cons_self _ _)
    cases hl : dlookup conc cmpd with
    | none => rw [hl] at hp; simp at hp
    | some concentration =>
      have hrest : ∀ p ∈ rest, (dlookup conc p.1).isSome = true :=
        fun p hp2 => h p (List.mem_cons_of_mem _ hp2)
      simp only [rateGo, hl, ih hrest, List.map_cons, List.prod_cons]
      have hv : dgetD conc cmpd 0 = concentration := by simp [dgetD, hl]
      rw [hv]
      ring

theorem rateGo_absent (conc : CDict α ℚ) (l : CDict α Int)
    (h : ∃ p ∈ l, dlookup conc p.1 = none) :
    ∀ rate : ℚ, rateGo conc rate l = 0 := by
  induction l with
  | nil => simp at h
  | cons p rest ih =>
    intro rate
    obtain ⟨cmpd, coeff⟩ := p
    cases hl : dlookup conc cmpd with
    | none => simp [rateGo, hl]
    | some concentration =>
      obtain ⟨q, hq, hqnone⟩ := h
      rcases List.mem_cons.mp hq with h1 | h1
      · rw [h1] at hqnone
        simp only at hqnone
        rw [hqnone] at hl
        cases hl
      · exact by simp only [rateGo, hl]; exact ih ⟨q, h1, hqnone⟩ _

end RateLemmas

/- ---------------------------------------------------------------------
Lemmas about get_stoichiometry_matrix
--------------------------------------------------------------------- -/

section StoichLemmas

variable [DecidableEq α]

theorem foldl_dinsert_neg_eq (l : CDict α Int) (d : CDict α Int) :
    l.foldl (fun d p => dinsert d p.1 (-p.2)) d
      = (l.map (fun p => (p.1, -p.2))).foldl (fun d p => dinsert d p.1 p.2) d := by
  rw [List.foldl_map]

theorem mem_dkeys_stoich (r : Reaction α) (c : α) :
    c ∈ dkeys r.get_stoichiometry_matrix ↔
      c ∈ dkeys r.reactants ∨ c ∈ dkeys r.products := by
  unfold Reaction.get_stoichiometry_matrix
  rw [mem_dkeys_foldl_dinsert, foldl_dinsert_neg_eq, mem_dkeys_foldl_dinsert]
  rw [dkeys_map_value, dkeys_nil]
  simp only [List.not_mem_nil, false_or]

theorem dkeys_stoich_nodup (r : Reaction α) :
    (dkeys r.get_stoichiometry_matrix).Nodup := by
  unfold Reaction.get_stoichiometry_matrix
  rw [foldl_dinsert_neg_eq]
  exact dkeys_foldl_dinsert_nodup _
    (dkeys_foldl_dinsert_nodup _
      (show (dkeys ([] : CDict α Int)).Nodup from List.nodup_nil))

theorem stoich_lookup_of_mem_products (r : Reaction α)
    (hp : (dkeys r.products).Nodup) {c : α} (hc : c ∈ dkeys r.products) :
    dlookup r.get_stoichiometry_matrix c = dlookup r.products c := by
  unfold Reaction.get_stoichiometry_matrix
  exact dlookup_foldl_dinsert_of_mem _ hp hc

theorem stoich_lookup_of_reactant_only (r : Reaction α)
    (hr : (dkeys r.reactants).Nodup) {c : α}
    (hcr : c ∈ dkeys r.reactants) (hcp : c ∉ dkeys r.products) :
    dlookup r.get_stoichiometry_matrix c = (dlookup r.reactants c).map (fun z => -z) := by
  unfold Reaction.get_stoichiometry_matrix
  rw [dlookup_foldl_dinsert_of_not_mem _ hcp, foldl_dinsert_neg_eq]
  rw [dlookup_foldl_dinsert_of_mem _ (by rwa [dkeys_map_value])
    (by rwa [dkeys_map_value])]
  exact dlookup_map_value r.reactants (fun z => -z) c

theorem stoich_lookup_of_not_mem (r : Reaction α) {c : α}
    (hcr : c ∉ dkeys r.reactants) (hcp : c ∉ dkeys r.products) :
    dlookup r.get_stoichiometry_matrix c = none := by
  unfold Reaction.get_stoichiometry_matrix
  rw [dlookup_foldl_dinsert_of_not_mem _ hcp, foldl_dinsert_neg_eq,
    dlookup_foldl_dinsert_of_not_mem _ (by rwa [dkeys_map_value])]
  rfl

end StoichLemmas

/- ---------------------------------------------------------------------
Lemmas about all_compounds
--------------------------------------------------------------------- -/

section AllCompoundsLemmas

variable [DecidableEq α]

theorem mem_foldl_addCompound (l : List α) (acc : List α) (c : α) :
    c ∈ l.foldl addCompound acc ↔ c ∈ acc ∨ c ∈ l := by
  induction l generalizing acc with
  | nil => simp
  | cons x rest ih =>
    simp only [List.foldl_cons, ih, List.mem_cons]
    unfold addCompound
    by_cases hx : x ∈ acc
    · rw [if_pos hx]
      constructor
      · rintro (h | h)
        · exact Or.inl h
        · exact Or.inr (Or.inr h)
      · rintro (h | h | h)
        · exact Or.inl h
        · rw [h]; exact Or.inl hx
        · exact Or.inr h
    · rw [if_neg hx]
      simp only [List.mem_append, List.mem_singleton]
      tauto

theorem nodup_foldl_addCompound (l : List α) {acc : List α} (h : acc.Nodup) :
    (l.foldl addCompound acc).Nodup := by
  induction l generalizing acc with
  | nil => exact h
  | cons x rest ih =>
    simp only [List.foldl_cons]
    apply ih
    unfold addCompound
    by_cases hx : x ∈ acc
    · rwa [if_pos hx]
    · rw [if_neg hx, List.nodup_append]
      refine ⟨h, List.nodup_singleton x, ?_⟩
      intro y hy hy2
      rw [List.mem_singleton] at hy2
      rw [hy2] at hy
      exact hx hy

theorem all_compounds_nodup (sys : ReactionSystem α) : sys.all_compounds.Nodup := by
  unfold ReactionSystem.all_compounds
  generalize sys.reactions = rs
  have hgen : ∀ (rs : List (Reaction α)) (acc : List α), acc.Nodup →
      (rs.foldl (fun acc r => (dkeys r.reactants ++ dkeys r.products).foldl addCompound acc)
        acc).Nodup := by
    intro rs
    induction rs with
    | nil => exact fun acc h => h
    | cons r rest ih =>
      intro acc h
      exact ih _ (nodup_foldl_addCompound _ h)
  exact hgen rs [] List.nodup_nil

theorem mem_all_compounds (sys : ReactionSystem α) (c : α) :
    c ∈ sys.all_compounds ↔
      ∃ r ∈ sys.reactions, c ∈ dkeys r.reactants ∨ c ∈ dkeys r.products := by
  unfold ReactionSystem.all_compounds
  have hgen : ∀ (rs : List (Reaction α)) (acc : List α),
      c ∈ rs.foldl (fun acc r => (dkeys r.reactants ++ dkeys r.products).foldl addCompound acc)
        acc
      ↔ c ∈ acc ∨ ∃ r ∈ rs, c ∈ dkeys r.reactants ∨ c ∈ dkeys r.products := by
    intro rs
    induction rs with
    | nil => simp
    | cons r rest ih =>
      intro acc
      rw [List.foldl_cons, ih, mem_foldl_addCompound, List.mem_append]
      simp only [List.mem_cons]
      constructor
      · rintro ((h | h) | ⟨q, hq, hmem⟩)
        · exact Or.inl h
        · exact Or.inr ⟨r, Or.inl rfl, h⟩
        · exact Or.inr ⟨q, Or.inr hq, hmem⟩
      · rintro (h | ⟨q, (hq | hq), hmem⟩)
        · exact Or.inl (Or.inl h)
        · rw [hq] at hmem; exact Or.inl (Or.inr hmem)
        · exact Or.inr ⟨q, hq, hmem⟩
  rw [hgen sys.reactions []]
  simp

theorem stoich_keys_subset_all_compounds (sys : ReactionSystem α) {r : Reaction α}
    (hr : r ∈ sys.reactions) {c : α} (hc : c ∈ dkeys r.get_stoichiometry_matrix) :
    c ∈ sys.all_compounds := by
  rw [mem_all_compounds]
  exact ⟨r, hr, (mem_dkeys_stoich r c).mp hc⟩

end AllCompoundsLemmas

/- ---------------------------------------------------------------------
Characterisation of the rate_changes accumulation
--------------------------------------------------------------------- -/

section RateChangesLemmas

variable [DecidableEq α]

theorem rc_stoich_fold_lookup (rate : ℚ) (st : CDict α Int) (hst : (dkeys st).Nodup) :
    ∀ (d : CDict α ℚ) (c : α) (v : ℚ), dlookup d c = some v →
      dlookup (st.foldl (fun rc p => dinsert rc p.1 (dgetD rc p.1 0 + (p.2 : ℚ) * rate)) d) c
        = some (v + ((dgetD st c 0 : Int) : ℚ) * rate) := by
  induction st with
  | nil =>
    intro d c v h
    simp only [List.foldl_nil, dgetD, dlookup_nil, Option.getD_none, Int.cast_zero,
      zero_mul, add_zero]
    exact h
  | cons p rest ih =>
    intro d c v h
    obtain ⟨k, kv⟩ := p
    rw [dkeys_cons, List.nodup_cons] at hst
    rw [List.foldl_cons]
    by_cases hkc : k = c
    · subst hkc
      have hd2 : dlookup (dinsert d k (dgetD d k 0 + (kv : ℚ) * rate)) k
          = some (v + (kv : ℚ) * rate) := by
        rw [dlookup_dinsert, if_pos rfl]
        have hv : dgetD d k 0 = v := by simp [dgetD, h]
        rw [hv]
      rw [ih hst.2 _ k _ hd2, dgetD_of_not_mem hst.1]
      have hself : dgetD ((k, kv) :: rest) k 0 = kv := by
        simp [dgetD, dlookup_cons]
      rw [hself]
      norm_num
    · have hd2 : dlookup (dinsert d k (dgetD d k 0 + (kv : ℚ) * rate)) c = some v := by
        rw [dlookup_dinsert, if_neg hkc]
        exact h
      rw [ih hst.2 _ c v hd2]
      have hskip : dgetD ((k, kv) :: rest) c 0 = dgetD rest c 0 := by
        simp [dgetD, dlookup_cons, hkc]
      rw [hskip]

theorem rc_reactions_fold_lookup (cur : CDict α ℚ) (rs : List (Reaction α)) :
    ∀ (d : CDict α ℚ) (c : α) (v : ℚ), dlookup d c = some v →
      dlookup
        (rs.foldl
          (fun rc r =>
            (r.get_stoichiometry_matrix).foldl
              (fun rc p =>
                dinsert rc p.1 (dgetD rc p.1 0 + (p.2 : ℚ) * r.calculate_rate cur))
              rc)
          d) c
      = some (v + (rs.map
          (fun r => ((dgetD r.get_stoichiometry_matrix c 0 : Int) : ℚ)
            * r.calculate_rate cur)).sum) := by
  induction rs with
  | nil =>
    intro d c v h
    simp only [List.foldl_nil, List.map_nil, List.sum_nil, add_zero]
    exact h
  | cons r rest ih =>
    intro d c v h
    rw [List.foldl_cons]
    rw [ih _ c _
      (rc_stoich_fold_lookup (r.calculate_rate cur) r.get_stoichiometry_matrix
        (dkeys_stoich_nodup r) d c v h)]
    rw [List.map_cons, List.sum_cons, add_assoc]

theorem computeRateChanges_lookup (sys : ReactionSystem α) (cur : CDict α ℚ) {c : α}
    (hc : c ∈ sys.all_compounds) :
    dlookup (computeRateChanges sys cur) c = some (sumRateChange sys cur c) := by
  unfold computeRateChanges sumRateChange
  rw [rc_reactions_fold_lookup cur sys.reactions _ c 0
    (dlookup_map_self (f := fun _ => (0 : ℚ)) hc)]
  rw [zero_add]

theorem computeRateChanges_getD (sys : ReactionSystem α) (cur : CDict α ℚ) {c : α}
    (hc : c ∈ sys.all_compounds) :
    dgetD (computeRateChanges sys cur) c 0 = sumRateChange sys cur c := by
  simp [dgetD, computeRateChanges_lookup sys cur hc]

end RateChangesLemmas

/- ---------------------------------------------------------------------
The simulation loop produces exactly the reference state sequence
--------------------------------------------------------------------- -/

section LoopLemmas

variable [DecidableEq α]

theorem stepConcs_traj (sys : ReactionSystem α) (concs : CDict α (List ℚ)) (dt : ℚ)
    {c : α} (hc : c ∈ sys.all_compounds) :
    dgetD (stepConcs sys concs dt) c []
      = dgetD concs c [] ++ [dgetD (nextState sys (lastState sys concs) dt) c 0] := by
  unfold stepConcs nextState
  rw [dgetD_map_self hc, dgetD_map_self hc,
    computeRateChanges_getD sys (lastState sys concs) hc]

theorem lastState_stepConcs (sys : ReactionSystem α) (concs : CDict α (List ℚ)) (dt : ℚ) :
    lastState sys (stepConcs sys concs dt) = nextState sys (lastState sys concs) dt := by
  unfold lastState nextState
  apply List.map_congr_left
  intro a ha
  have h1 : dgetD (stepConcs sys concs dt) a []
      = dgetD concs a [] ++ [dgetD (nextState sys (lastState sys concs) dt) a 0] :=
    stepConcs_traj sys concs dt ha
  rw [h1, List.getLastD_concat]
  unfold nextState
  rw [dgetD_map_self ha]
  unfold lastState
  rw [dgetD_map_self ha]

theorem simLoop_traj (sys : ReactionSystem α) (ts : List ℚ) :
    ∀ (concs : CDict α (List ℚ)) (tprev : ℚ) (c : α), c ∈ sys.all_compounds →
      dgetD (simLoop sys concs tprev ts) c []
        = dgetD concs c []
          ++ (statesFrom sys (lastState sys concs) tprev ts).map (fun s => dgetD s c 0) := by
  induction ts with
  | nil =>
    intro concs tprev c hc
    simp [simLoop, statesFrom]
  | cons t rest ih =>
    intro concs tprev c hc
    show dgetD (simLoop sys (stepConcs sys concs (t - tprev)) t rest) c [] = _
    rw [ih (stepConcs sys concs (t - tprev)) t c hc,
      stepConcs_traj sys concs (t - tprev) hc,
      lastState_stepConcs sys concs (t - tprev)]
    show _ = dgetD concs c []
      ++ (nextState sys (lastState sys concs) (t - tprev)
            :: statesFrom sys (nextState sys (lastState sys concs) (t - tprev)) t rest).map
          (fun s => dgetD s c 0)
    rw [List.map_cons, List.append_assoc, List.singleton_append]

theorem lastState_init (sys : ReactionSystem α) (initial : CDict α ℚ) :
    lastState sys (sys.all_compounds.map (fun compound => (compound, [dgetD initial compound 0])))
      = state0 sys initial := by
  unfold lastState state0
  apply List.map_congr_left
  intro a ha
  rw [dgetD_map_self ha]
  rfl

theorem simulate_traj (sys : ReactionSystem α) (initial : CDict α ℚ) (t0 : ℚ) (rest : List ℚ)
    {c : α} (hc : c ∈ sys.all_compounds) :
    dgetD (sys.simulate initial (t0 :: rest)) c []
      = (refStates sys initial (t0 :: rest)).map (fun s => dgetD s c 0) := by
  show dgetD (simLoop sys
      (sys.all_compounds.map (fun compound => (compound, [dgetD initial compound 0]))) t0 rest)
      c [] = _
  rw [simLoop_traj sys rest _ t0 c hc, lastState_init sys initial,
    dgetD_map_self hc]
  show [dgetD initial c 0] ++ _ = _
  unfold refStates
  rw [List.map_cons, List.singleton_append]
  have h0 : dgetD (state0 sys initial) c 0 = dgetD initial c 0 := by
    unfold state0
    rw [dgetD_map_self hc]
  rw [h0]

theorem statesFrom_length (sys : ReactionSystem α) (ts : List ℚ) :
    ∀ (cur : CDict α ℚ) (tprev : ℚ), (statesFrom sys cur tprev ts).length = ts.length := by
  induction ts with
  | nil => intro cur tprev; rfl
  | cons t rest ih =>
    intro cur tprev
    show (statesFrom sys (nextState sys cur (t - tprev)) t rest).length + 1 = rest.length + 1
    rw [ih]

theorem refStates_length (sys : ReactionSystem α) (initial : CDict α ℚ) (tp : List ℚ) :
    (refStates sys initial tp).length = tp.length := by
  cases tp with
  | nil => rfl
  | cons t0 rest =>
    show (statesFrom sys (state0 sys initial) t0 rest).length + 1 = rest.length + 1
    rw [statesFrom_length]

end LoopLemmas

section StateLemmas

variable [DecidableEq α]

theorem statesFrom_getD_succ (sys : ReactionSystem α) (ts : List ℚ) :
    ∀ (cur : CDict α ℚ) (tprev : ℚ) (j : ℕ),
      j + 1 < (cur :: statesFrom sys cur tprev ts).length →
      (cur :: statesFrom sys cur tprev ts).getD (j + 1) []
        = nextState sys ((cur :: statesFrom sys cur tprev ts).getD j [])
            ((tprev :: ts).getD (j + 1) 0 - (tprev :: ts).getD j 0) := by
  induction ts with
  | nil =>
    intro cur tprev j h
    simp [statesFrom] at h
  | cons t rest ih =>
    intro cur tprev j h
    have hsf : statesFrom sys cur tprev (t :: rest)
        = nextState sys cur (t - tprev)
          :: statesFrom sys (nextState sys cur (t - tprev)) t rest := rfl
    cases j with
    | zero =>
      rw [hsf]
      rw [List.getD_cons_succ, List.getD_cons_zero, List.getD_cons_zero,
        List.getD_cons_succ, List.getD_cons_zero, List.getD_cons_zero]
    | succ j2 =>
      rw [hsf] at h ⊢
      rw [List.length_cons, List.length_cons] at h
      have hb : j2 + 1 < (nextState sys cur (t - tprev)
          :: statesFrom sys (nextState sys cur (t - tprev)) t rest).length := by
        simp only [List.length_cons] at h ⊢
        omega
      have hstep := ih (nextState sys cur (t - tprev)) t j2 hb
      rw [List.getD_cons_succ, List.getD_cons_succ, List.getD_cons_succ,
        List.getD_cons_succ]
      exact hstep

theorem statesFrom_mem_form (sys : ReactionSystem α) (ts : List ℚ) :
    ∀ (cur : CDict α ℚ) (tprev : ℚ) (s : CDict α ℚ), s ∈ statesFrom sys cur tprev ts →
      ∃ f : α → ℚ, s = sys.all_compounds.map (fun c => (c, f c)) := by
  induction ts with
  | nil => intro cur tprev s h; simp [statesFrom] at h
  | cons t rest ih =>
    intro cur tprev s h
    have hsf : statesFrom sys cur tprev (t :: rest)
        = nextState sys cur (t - tprev)
          :: statesFrom sys (nextState sys cur (t - tprev)) t rest := rfl
    rw [hsf] at h
    rcases List.mem_cons.mp h with h1 | h1
    · exact ⟨fun c => max 0 (dgetD cur c 0 + sumRateChange sys cur c * (t - tprev)),
        by rw [h1]; rfl⟩
    · exact ih _ t s h1

theorem refStates_mem_form (sys : ReactionSystem α) (initial : CDict α ℚ) (tp : List ℚ)
    (s : CDict α ℚ) (h : s ∈ refStates sys initial tp) :
    ∃ f : α → ℚ, s = sys.all_compounds.map (fun c => (c, f c)) := by
  cases tp with
  | nil => simp [refStates] at h
  | cons t0 rest =>
    rcases List.mem_cons.mp h with h1 | h1
    · exact ⟨fun c => dgetD initial c 0, by rw [h1]; rfl⟩
    · exact statesFrom_mem_form sys rest _ t0 s h1

theorem map_form_eta (l : List α) (s : CDict α ℚ) (f : α → ℚ)
    (hs : s = l.map (fun c => (c, f c))) :
    l.map (fun c => (c, dgetD s c 0)) = s := by
  subst hs
  apply List.map_congr_left
  intro a ha
  rw [dgetD_map_self ha]

theorem trajStateAt_eq_refState (sys : ReactionSystem α) (initial : CDict α ℚ)
    (t0 : ℚ) (rest : List ℚ) (j : ℕ) (hj : j < (t0 :: rest).length) :
    trajStateAt sys (sys.simulate initial (t0 :: rest)) j
      = (refStates sys initial (t0 :: rest)).getD j [] := by
  have hjs : j < (refStates sys initial (t0 :: rest)).length := by
    rw [refStates_length]
    exact hj
  have hmem : (refStates sys initial (t0 :: rest)).getD j []
      ∈ refStates sys initial (t0 :: rest) := by
    rw [List.getD_eq_getElem _ [] hjs]
    exact List.getElem_mem hjs
  obtain ⟨f, hform⟩ := refStates_mem_form sys initial (t0 :: rest) _ hmem
  unfold trajStateAt
  have key : ∀ c ∈ sys.all_compounds,
      (dgetD (sys.simulate initial (t0 :: rest)) c []).getD j 0
        = dgetD ((refStates sys initial (t0 :: rest)).getD j []) c 0 := by
    intro c hc
    rw [simulate_traj sys initial t0 rest hc]
    rw [List.getD_eq_getElem _ 0 (by rw [List.length_map]; exact hjs)]
    rw [List.getElem_map]
    rw [List.getD_eq_getElem _ [] hjs]
  have hcongr : sys.all_compounds.map
        (fun c => (c, (dgetD (sys.simulate initial (t0 :: rest)) c []).getD j 0))
      = sys.all_compounds.map
        (fun c => (c, dgetD ((refStates sys initial (t0 :: rest)).getD j []) c 0)) :=
    List.map_congr_left (fun a ha => by rw [key a ha])
  rw [hcongr]
  exact map_form_eta _ _ f hform

end StateLemmas

/- ---------------------------------------------------------------------
Key sets and non-negativity of the simulation result
--------------------------------------------------------------------- -/

section KeysNonnegLemmas

variable [DecidableEq α]

theorem dkeys_stepConcs (sys : ReactionSystem α) (concs : CDict α (List ℚ)) (dt : ℚ) :
    dkeys (stepConcs sys concs dt) = sys.all_compounds := by
  unfold stepConcs
  exact dkeys_map_self _ _

theorem dkeys_simLoop (sys : ReactionSystem α) (ts : List ℚ) :
    ∀ (concs : CDict α (List ℚ)) (tprev : ℚ), dkeys concs = sys.all_compounds →
      dkeys (simLoop sys concs tprev ts) = sys.all_compounds := by
  induction ts with
  | nil => intro concs tprev h; exact h
  | cons t rest ih =>
    intro concs tprev h
    exact ih (stepConcs sys concs (t - tprev)) t (dkeys_stepConcs sys concs (t - tprev))

theorem dkeys_simulate (sys : ReactionSystem α) (initial : CDict α ℚ) (tp : List ℚ) :
    dkeys (sys.simulate initial tp) = sys.all_compounds := by
  cases tp with
  | nil => exact dkeys_map_self _ _
  | cons t0 rest =>
    exact dkeys_simLoop sys rest _ t0 (dkeys_map_self _ _)

theorem dlookup_mem {d : CDict α β} {a : α} {b : β} (h : dlookup d a = some b) :
    (a, b) ∈ d := by
  induction d with
  | nil => cases h
  | cons p rest ih =>
    obtain ⟨k, v⟩ := p
    rw [dlookup_cons] at h
    by_cases hk : k = a
    · rw [if_pos hk] at h
      cases h
      rw [hk]
      exact List.mem_cons_self _ _
    · rw [if_neg hk] at h
      exact List.mem_cons_of_mem _ (ih h)

theorem dgetD_nonneg {initial : CDict α ℚ} (h : ∀ p ∈ initial, 0 ≤ p.2) (c : α) :
    0 ≤ dgetD initial c 0 := by
  cases hl : dlookup initial c with
  | none => simp [dgetD, hl]
  | some v =>
    have := h (c, v) (dlookup_mem hl)
    simpa [dgetD, hl] using this

theorem state0_nonneg (sys : ReactionSystem α) {initial : CDict α ℚ}
    (h : ∀ p ∈ initial, 0 ≤ p.2) (c : α) :
    0 ≤ dgetD (state0 sys initial) c 0 := by
  by_cases hc : c ∈ sys.all_compounds
  · unfold state0
    rw [dgetD_map_self hc]
    exact dgetD_nonneg h c
  · unfold state0
    rw [dgetD_of_not_mem (by rwa [dkeys_map_self])]

theorem nextState_nonneg (sys : ReactionSystem α) (cur : CDict α ℚ) (dt : ℚ) (c : α) :
    0 ≤ dgetD (nextState sys cur dt) c 0 := by
  by_cases hc : c ∈ sys.all_compounds
  · unfold nextState
    rw [dgetD_map_self hc]
    exact le_max_left 0 _
  · unfold nextState
    rw [dgetD_of_not_mem (by rwa [dkeys_map_self])]

theorem refStates_nonneg (sys : ReactionSystem α) {initial : CDict α ℚ}
    (h : ∀ p ∈ initial, 0 ≤ p.2) (tp : List ℚ) (s : CDict α ℚ)
    (hs : s ∈ refStates sys initial tp) (c : α) :
    0 ≤ dgetD s c 0 := by
  cases tp with
  | nil => simp [refStates] at hs
  | cons t0 rest =>
    rcases List.mem_cons.mp hs with h1 | h1
    · rw [h1]
      exact state0_nonneg sys h c
    · have hnext : ∀ (ts : List ℚ) (cur : CDict α ℚ) (tprev : ℚ),
          s ∈ statesFrom sys cur tprev ts → ∃ cur2 dt, s = nextState sys cur2 dt := by
        intro ts
        induction ts with
        | nil => intro cur tprev hmem; simp [statesFrom] at hmem
        | cons t rest2 ih =>
          intro cur tprev hmem
          rcases List.mem_cons.mp hmem with h2 | h2
          · exact ⟨cur, t - tprev, h2⟩
          · exact ih _ t h2
      obtain ⟨cur2, dt, hdt⟩ := hnext rest _ t0 h1
      rw [hdt]
      exact nextState_nonneg sys cur2 dt c

end KeysNonnegLemmas

/- ---------------------------------------------------------------------
Lemmas about formula parsing and molar mass
--------------------------------------------------------------------- -/

theorem pyIsAlpha_of_upper {ch : Char} (h : ch.isUpper = true) :
    pyIsAlpha (String.singleton ch) = true := by
  have ha : ch.isAlpha = true := by
    unfold Char.isAlpha
    rw [h, Bool.true_or]
  simp [pyIsAlpha, String.singleton, ha]

theorem pyIsAlpha_of_upper_lower {ch c2 : Char} (h : ch.isUpper = true)
    (h2 : c2.isLower = true) :
    pyIsAlpha (⟨[ch, c2]⟩ : String) = true := by
  have ha : ch.isAlpha = true := by
    unfold Char.isAlpha
    rw [h, Bool.true_or]
  have ha2 : c2.isAlpha = true := by
    unfold Char.isAlpha
    rw [h2, Bool.or_true]
  simp [pyIsAlpha, ha, ha2]

theorem scanFormula_nil : scanFormula [] = [] := by
  rw [scanFormula.eq_def]

theorem scanFormula_not_upper {ch : Char} (h : ¬ ch.isUpper = true) (rest : List Char) :
    scanFormula (ch :: rest) = scanFormula rest := by
  rw [scanFormula.eq_def]
  simp [h]

theorem scanFormula_upper_last {ch : Char} (h : ch.isUpper = true) :
    scanFormula [ch] = [(String.singleton ch, 1)] := by
  rw [scanFormula.eq_def]
  simp [h]

theorem scanFormula_upper_lower {ch c2 : Char} (h : ch.isUpper = true)
    (h2 : c2.isLower = true) (rest2 : List Char) :
    scanFormula (ch :: c2 :: rest2)
      = (⟨[ch, c2]⟩,
          if (rest2.takeWhile Char.isDigit).isEmpty then 1
          else digitsVal (rest2.takeWhile Char.isDigit)) ::
          scanFormula (rest2.dropWhile Char.isDigit) := by
  rw [scanFormula.eq_def]
  simp [h, h2]

theorem scanFormula_upper_not_lower {ch c2 : Char} (h : ch.isUpper = true)
    (h2 : ¬ c2.isLower = true) (rest2 : List Char) :
    scanFormula (ch :: c2 :: rest2)
      = (String.singleton ch,
          if ((c2 :: rest2).takeWhile Char.isDigit).isEmpty then 1
          else digitsVal ((c2 :: rest2).takeWhile Char.isDigit)) ::
          scanFormula ((c2 :: rest2).dropWhile Char.isDigit) := by
  rw [scanFormula.eq_def]
  simp [h, h2]

theorem scanFormula_alpha (n : ℕ) :
    ∀ (l : List Char), l.length ≤ n → ∀ p ∈ scanFormula l, pyIsAlpha p.1 = true := by
  induction n with
  | zero =>
    intro l hl p hp
    have hnil : l = [] := List.eq_nil_of_length_eq_zero (Nat.le_zero.mp hl)
    rw [hnil, scanFormula_nil] at hp
    simp at hp
  | succ n ih =>
    intro l hl p hp
    cases l with
    | nil => rw [scanFormula_nil] at hp; simp at hp
    | cons ch rest =>
      rw [List.length_cons] at hl
      by_cases hup : ch.isUpper = true
      · cases rest with
        | nil =>
          rw [scanFormula_upper_last hup] at hp
          rcases List.mem_cons.mp hp with h1 | h1
          · rw [h1]
            exact pyIsAlpha_of_upper hup
          · simp at h1
        | cons c2 rest2 =>
          rw [List.length_cons] at hl
          by_cases hlo : c2.isLower = true
          · rw [scanFormula_upper_lower hup hlo] at hp
            rcases List.mem_cons.mp hp with h1 | h1
            · rw [h1]
              exact pyIsAlpha_of_upper_lower hup hlo
            · have hlen : (rest2.dropWhile Char.isDigit).length ≤ n := by
                have := length_dropWhile_le Char.isDigit rest2
                omega
              exact ih _ hlen p h1
          · rw [scanFormula_upper_not_lower hup hlo] at hp
            rcases List.mem_cons.mp hp with h1 | h1
            · rw [h1]
              exact pyIsAlpha_of_upper hup
            · have hlen : ((c2 :: rest2).dropWhile Char.isDigit).length ≤ n := by
                have := length_dropWhile_le Char.isDigit (c2 :: rest2)
                rw [List.length_cons] at this
                omega
              exact ih _ hlen p h1
      · rw [scanFormula_not_upper hup] at hp
        exact ih rest (by omega) p hp

theorem parse_formula_keys_alpha (formula : String) :
    ∀ el ∈ dkeys (parse_formula formula), pyIsAlpha el = true := by
  intro el hel
  unfold parse_formula at hel
  rcases (mem_dkeys_foldl_dinsert _ _ el).mp hel with h1 | h1
  · simp [dkeys_nil] at h1
  · unfold dkeys at h1
    obtain ⟨p, hp, hp1⟩ := List.mem_map.mp h1
    rw [← hp1]
    exact scanFormula_alpha formula.data.length formula.data le_rfl p hp

theorem sumMasses_ok (comp : CDict String ℕ)
    (h : ∀ el ∈ dkeys comp, pyIsAlpha el = true) :
    ∀ acc : ℚ, ∃ q, sumMasses comp acc = .ok q := by
  induction comp with
  | nil => intro acc; exact ⟨acc, rfl⟩
  | cons p rest ih =>
    intro acc
    obtain ⟨el, cnt⟩ := p
    have hel : pyIsAlpha el = true := h el (by rw [dkeys_cons]; exact List.mem_cons_self _ _)
    have hrest : ∀ e ∈ dkeys rest, pyIsAlpha e = true :=
      fun e he => h e (by rw [dkeys_cons]; exact List.mem_cons_of_mem _ he)
    cases hl : dlookup atomic_masses el with
    | some m =>
      obtain ⟨q, hq⟩ := ih hrest (acc + m * cnt)
      exact ⟨q, by rw [sumMasses, hl]; exact hq⟩
    | none =>
      obtain ⟨q, hq⟩ := ih hrest (acc + 100 * cnt)
      exact ⟨q, by rw [sumMasses, hl, if_pos hel]; exact hq⟩

theorem calculate_molar_mass_ok (c : ChemicalCompound)
    (h : ∀ el ∈ dkeys c.composition, pyIsAlpha el = true) :
    ∃ m c2, c.calculate_molar_mass = .ok (m, c2) ∧ c2.molar_mass = some m := by
  obtain ⟨cf, cn, cmm, ccomp⟩ := c
  cases cmm with
  | some m => exact ⟨m, _, rfl, rfl⟩
  | none =>
    unfold ChemicalCompound.calculate_molar_mass
    simp only
    by_cases hgen : ccomp.length = 1 ∧ ((dkeys ccomp).getD 0 "").length = 1 ∧
        dlookup atomic_masses ((dkeys ccomp).getD 0 "") = none ∧
        pyIsAlpha ((dkeys ccomp).getD 0 "") = true
    · rw [if_pos hgen]
      exact ⟨100, _, rfl, rfl⟩
    · rw [if_neg hgen]
      obtain ⟨q, hq⟩ := sumMasses_ok ccomp h 0
      rw [hq]
      exact ⟨q, _, rfl, rfl⟩

theorem calculate_molar_mass_caches (c : ChemicalCompound) {m : ℚ} {c2 : ChemicalCompound}
    (h : c.calculate_molar_mass = .ok (m, c2)) : c2.molar_mass = some m := by
  obtain ⟨cf, cn, cmm, ccomp⟩ := c
  cases cmm with
  | some m0 =>
    cases h
    rfl
  | none =>
    unfold ChemicalCompound.calculate_molar_mass at h
    simp only at h
    by_cases hgen : ccomp.length = 1 ∧ ((dkeys ccomp).getD 0 "").length = 1 ∧
        dlookup atomic_masses ((dkeys ccomp).getD 0 "") = none ∧
        pyIsAlpha ((dkeys ccomp).getD 0 "") = true
    · rw [if_pos hgen] at h
      cases h
      rfl
    · rw [if_neg hgen] at h
      cases hs : sumMasses ccomp 0 with
      | ok total =>
        rw [hs] at h
        cases h
        rfl
      | error e =>
        rw [hs] at h
        cases h

theorem calculate_molar_mass_cached (c : ChemicalCompound) {m : ℚ}
    (h : c.molar_mass = some m) : c.calculate_molar_mass = .ok (m, c) := by
  obtain ⟨cf, cn, cmm, ccomp⟩ := c
  cases h
  rfl

/- ---------------------------------------------------------------------
Concrete instances used by witnesses and counterexamples
--------------------------------------------------------------------- -/

/-- Concrete compound keys for witnesses (compounds keyed by identity are
modelled by their formula strings). -/
def cA : String := "A"

def cB : String := "B"

def cC : String := "C"

/-- The repository's default example reaction `A + B → C` with `k = 0.1`. -/
def rxnW : Reaction String :=
  { reactants := [(cA, 1), (cB, 1)], products := [(cC, 1)], rate_constant := 1/10 }

/-- A reaction whose compound `B` appears on both sides. -/
def rxnBoth : Reaction String :=
  { reactants := [(cA, 1), (cB, 2)], products := [(cB, 3), (cC, 1)], rate_constant := 1 }

def sysW : ReactionSystem String := ⟨[rxnW]⟩

def initW : CDict String ℚ := [(cA, 1), (cB, 2)]

def tpW : List ℚ := [0, 1]

/-- Concentrations with every reactant of `rxnW` present. -/
def concFull : CDict String ℚ := [(cA, 1), (cB, 1/2), (cC, 0)]

/-- Concentrations with reactant `B` of `rxnW` absent. -/
def concMiss : CDict String ℚ := [(cA, 1)]

/-- A calculator with no reactions defined. -/
def calcW : ChemicalCalculator := { compounds := [], reactions := [] }

def strH2O : String := "H2O"

/- ---------------------------------------------------------------------
Claim theorems
--------------------------------------------------------------------- -/

/-- C2: `calculate_rate` returns `rate_constant * Π concentrations[reactant] ^ coeff`
over all reactants when every reactant is a key of the concentrations
mapping, and exactly `0.0` when at least one reactant is absent.  The rate
is a pure function of the mapping passed in, so a later call with the
reactant present again computes the product formula (second conjunct at one
mapping, first conjunct at another). -/
theorem calculate_rate_spec [DecidableEq α] (r : Reaction α) (conc : CDict α ℚ) :
    ((∀ p ∈ r.reactants, (dlookup conc p.1).isSome = true) →
      r.calculate_rate conc
        = r.rate_constant * (r.reactants.map (fun p => dgetD conc p.1 0 ^ p.2)).prod)
    ∧ ((∃ p ∈ r.reactants, dlookup conc p.1 = none) → r.calculate_rate conc = 0) :=
  ⟨fun h => rateGo_all_present conc r.reactants h r.rate_constant,
   fun h => rateGo_absent conc r.reactants h r.rate_constant⟩

/-- Witness for C2 at the example reaction `A + B → C`: with all reactants
present the product formula holds, and with `B` absent the rate is `0.0`. -/
theorem calculate_rate_spec_witness :
    (rxnW.calculate_rate concFull
      = rxnW.rate_constant * (rxnW.reactants.map (fun p => dgetD concFull p.1 0 ^ p.2)).prod)
    ∧ rxnW.calculate_rate concMiss = 0 :=
  ⟨(calculate_rate_spec rxnW concFull).1 (by decide),
   (calculate_rate_spec rxnW concMiss).2 (by decide)⟩

/-- C3: `get_stoichiometry_matrix` has exactly the union of the reactant and
product compound sets as keys; a compound that is only a reactant maps to
`-coefficient`, a compound that is only a product maps to `+coefficient`,
and a compound on both sides maps to the product's coefficient (the product
entry overwrites the reactant entry). -/
theorem get_stoichiometry_matrix_spec [DecidableEq α] (r : Reaction α)
    (hr : (dkeys r.reactants).Nodup) (hp : (dkeys r.products).Nodup) :
    (∀ c : α, c ∈ dkeys r.get_stoichiometry_matrix ↔
        c ∈ dkeys r.reactants ∨ c ∈ dkeys r.products)
    ∧ (∀ c ∈ dkeys r.reactants, c ∉ dkeys r.products →
        dlookup r.get_stoichiometry_matrix c = some (-(dgetD r.reactants c 0)))
    ∧ (∀ c ∈ dkeys r.products, c ∉ dkeys r.reactants →
        dlookup r.get_stoichiometry_matrix c = some (dgetD r.products c 0))
    ∧ (∀ c ∈ dkeys r.reactants, c ∈ dkeys r.products →
        dlookup r.get_stoichiometry_matrix c = some (dgetD r.products c 0)) := by
  refine ⟨fun c => mem_dkeys_stoich r c, ?_, ?_, ?_⟩
  · intro c hcr hcp
    rw [stoich_lookup_of_reactant_only r hr hcr hcp,
      dlookup_eq_some_dgetD_of_mem hcr 0]
    rfl
  · intro c hcp _
    rw [stoich_lookup_of_mem_products r hp hcp, dlookup_eq_some_dgetD_of_mem hcp 0]
  · intro c _ hcp
    rw [stoich_lookup_of_mem_products r hp hcp, dlookup_eq_some_dgetD_of_mem hcp 0]

/-- Witness for C3 at a reaction `A + 2B → 3B + C` whose compound `B` is
listed on both sides. -/
theorem get_stoichiometry_matrix_spec_witness :
    (∀ c : String, c ∈ dkeys rxnBoth.get_stoichiometry_matrix ↔
        c ∈ dkeys rxnBoth.reactants ∨ c ∈ dkeys rxnBoth.products)
    ∧ (∀ c ∈ dkeys rxnBoth.reactants, c ∉ dkeys rxnBoth.products →
        dlookup rxnBoth.get_stoichiometry_matrix c = some (-(dgetD rxnBoth.reactants c 0)))
    ∧ (∀ c ∈ dkeys rxnBoth.products, c ∉ dkeys rxnBoth.reactants →
        dlookup rxnBoth.get_stoichiometry_matrix c = some (dgetD rxnBoth.products c 0))
    ∧ (∀ c ∈ dkeys rxnBoth.reactants, c ∈ dkeys rxnBoth.products →
        dlookup rxnBoth.get_stoichiometry_matrix c = some (dgetD rxnBoth.products c 0)) :=
  get_stoichiometry_matrix_spec rxnBoth (by decide) (by decide)

/-- C10: the key set of the mapping returned by `ReactionSystem.simulate` is
exactly the set of compounds appearing as a reactant or product of at least
one reaction of the system; in particular an `initial_concentrations` entry
whose compound appears in no reaction is absent from the result (the
right-hand side does not depend on `initial_concentrations` at all). -/
theorem simulate_result_keys [DecidableEq α] (sys : ReactionSystem α)
    (initial : CDict α ℚ) (tp : List ℚ) :
    ∀ c : α, c ∈ dkeys (sys.simulate initial tp) ↔
      ∃ r ∈ sys.reactions, c ∈ dkeys r.reactants ∨ c ∈ dkeys r.products := by
  intro c
  rw [dkeys_simulate, mem_all_compounds]

/-- C5: every concentration value stored in a simulation result is `≥ 0.0`
(given the spec's contract that the initial concentrations are
non-negative: step 0 copies them, and every later step is clamped by
`max(0.0, ...)`). -/
theorem simulate_nonneg [DecidableEq α] (sys : ReactionSystem α)
    (initial : CDict α ℚ) (tp : List ℚ)
    (hinit : ∀ p ∈ initial, 0 ≤ p.2) :
    ∀ c ∈ dkeys (sys.simulate initial tp),
      ∀ x ∈ dgetD (sys.simulate initial tp) c [], 0 ≤ x := by
  intro c hc x hx
  rw [dkeys_simulate] at hc
  cases tp with
  | nil =>
    have hres : dgetD (sys.simulate initial ([] : List ℚ)) c [] = [dgetD initial c 0] := by
      show dgetD (sys.all_compounds.map
        (fun compound => (compound, [dgetD initial compound 0]))) c [] = _
      rw [dgetD_map_self hc]
    rw [hres] at hx
    rcases List.mem_singleton.mp hx with h1
    rw [h1]
    exact dgetD_nonneg hinit c
  | cons t0 rest =>
    rw [simulate_traj sys initial t0 rest hc] at hx
    obtain ⟨s, hs, hsx⟩ := List.mem_map.mp hx
    rw [← hsx]
    exact refStates_nonneg sys hinit (t0 :: rest) s hs c

/-- Witness for C5 at the example system, non-negative initial data, and
the first stored value of compound `A`. -/
theorem simulate_nonneg_witness :
    0 ≤ (dgetD (sysW.simulate initW tpW) cA []).getD 0 0 := by
  have hmem : (dgetD (sysW.simulate initW tpW) cA []).getD 0 0
      ∈ dgetD (sysW.simulate initW tpW) cA [] := by
    rw [List.getD_eq_getElem _ 0 (by decide)]
    exact List.getElem_mem (by decide)
  exact simulate_nonneg sysW initW tpW (by decide) cA (by decide) _ hmem

/-- C6: with zero reactions defined, `simulate_reactions` fails with
`EmptySystemError` (the `ValueError` of the source) before any time point
is computed, and no trajectory is returned (the `Except` carries only the
error). -/
theorem simulate_reactions_empty_system (calculator : ChemicalCalculator)
    (time_end : ℚ) (time_steps : ℕ)
    (h : calculator.reactions = []) :
    calculator.simulate_reactions time_end time_steps = .error .EmptySystemError := by
  unfold ChemicalCalculator.simulate_reactions
  rw [h]
  rfl

/-- Witness for C6: a calculator with no reactions. -/
theorem simulate_reactions_empty_system_witness :
    calcW.simulate_reactions 100 1000 = .error .EmptySystemError :=
  simulate_reactions_empty_system calcW 100 1000 rfl

/-- C4 (counterexample): `simulate` accepts the empty time_points list, and
there the returned trajectories have length 1 while `len(time_points) = 0`,
so `len(result[c]) == len(time_points)` fails for "every time_points list
accepted by simulate". -/
theorem simulate_length_counterexample :
    ¬ ∀ c ∈ dkeys (sysW.simulate initW ([] : List ℚ)),
        (dgetD (sysW.simulate initW ([] : List ℚ)) c []).length
          = ([] : List ℚ).length := by
  decide

/-- C4 (amended): for every simulation whose `time_points` list is nonempty,
every compound of the result has `len(result[c]) == len(time_points)` and
`result[c][0] == initial_concentrations.get(c, 0.0)` (with empty
`time_points` the code still returns one row per compound, the initial
one). -/
theorem simulate_length_and_first_entry [DecidableEq α] (sys : ReactionSystem α)
    (initial : CDict α ℚ) (tp : List ℚ) (hne : tp ≠ []) :
    ∀ c ∈ dkeys (sys.simulate initial tp),
      (dgetD (sys.simulate initial tp) c []).length = tp.length ∧
      (dgetD (sys.simulate initial tp) c []).getD 0 0 = dgetD initial c 0 := by
  cases tp with
  | nil => exact absurd rfl hne
  | cons t0 rest =>
    intro c hc
    rw [dkeys_simulate] at hc
    rw [simulate_traj sys initial t0 rest hc]
    constructor
    · rw [List.length_map, refStates_length]
    · show ((state0 sys initial :: statesFrom sys (state0 sys initial) t0 rest).map
        (fun s => dgetD s c 0)).getD 0 0 = _
      rw [List.map_cons, List.getD_cons_zero]
      unfold state0
      rw [dgetD_map_self hc]

/-- Witness for the amended C4 at the example system and compound `A`. -/
theorem simulate_length_and_first_entry_witness :
    (dgetD (sysW.simulate initW tpW) cA []).length = tpW.length ∧
    (dgetD (sysW.simulate initW tpW) cA []).getD 0 0 = dgetD initW cA 0 :=
  simulate_length_and_first_entry sysW initW tpW (by decide) cA (by decide)

/-- C1: for every reaction system, every non-negative initial concentration
mapping and every strictly increasing time_points sequence of length ≥ 2,
`simulate` returns the forward-Euler reference trajectories: row 0 of every
compound's trajectory is `initial_concentrations.get(c, 0.0)` and row `i`
(for `1 ≤ i < len(time_points)`) is
`max(0, row (i-1) + dt_i * Σ_r net_coeff(r, c) * rate_r(previous state))`,
with `dt_i = time_points[i] - time_points[i-1]`, the net coefficient read
from `r.get_stoichiometry_matrix()` (0 when `c` is untouched by `r`) and
the previous state the mapping of all compounds to their row `i-1`
values. -/
theorem simulate_matches_forward_euler [DecidableEq α] (sys : ReactionSystem α)
    (initial : CDict α ℚ) (tp : List ℚ)
    (hinit : ∀ p ∈ initial, 0 ≤ p.2)
    (hlen : 2 ≤ tp.length)
    (hmono : List.Sorted (· < ·) tp) :
    ∀ c ∈ sys.all_compounds, ∃ traj : List ℚ,
      dlookup (sys.simulate initial tp) c = some traj ∧
      traj.getD 0 0 = dgetD initial c 0 ∧
      ∀ i : ℕ, 1 ≤ i → i < tp.length →
        traj.getD i 0
          = max 0 (traj.getD (i - 1) 0 +
              (tp.getD i 0 - tp.getD (i - 1) 0) *
              (sys.reactions.map
                (fun r => ((dgetD r.get_stoichiometry_matrix c 0 : Int) : ℚ)
                  * r.calculate_rate
                      (trajStateAt sys (sys.simulate initial tp) (i - 1)))).sum) := by
  cases tp with
  | nil => simp at hlen
  | cons t0 rest =>
    intro c hc
    refine ⟨dgetD (sys.simulate initial (t0 :: rest)) c [], ?_, ?_, ?_⟩
    · exact dlookup_eq_some_dgetD_of_mem (by rw [dkeys_simulate]; exact hc) []
    · rw [simulate_traj sys initial t0 rest hc]
      show ((state0 sys initial :: statesFrom sys (state0 sys initial) t0 rest).map
        (fun s => dgetD s c 0)).getD 0 0 = _
      rw [List.map_cons, List.getD_cons_zero]
      unfold state0
      rw [dgetD_map_self hc]
    · intro i h1 h2
      obtain ⟨j, rfl⟩ : ∃ j, i = j + 1 := ⟨i - 1, (Nat.succ_pred_eq_of_pos h1).symm⟩
      simp only [Nat.add_sub_cancel]
      have hlen2 : (refStates sys initial (t0 :: rest)).length = (t0 :: rest).length :=
        refStates_length sys initial (t0 :: rest)
      have hform : refStates sys initial (t0 :: rest)
          = state0 sys initial :: statesFrom sys (state0 sys initial) t0 rest := rfl
      have hj2 : j < (t0 :: rest).length := Nat.lt_of_succ_lt h2
      have htraj : ∀ k, k < (t0 :: rest).length →
          (dgetD (sys.simulate initial (t0 :: rest)) c []).getD k 0
            = dgetD ((refStates sys initial (t0 :: rest)).getD k []) c 0 := by
        intro k hk
        rw [simulate_traj sys initial t0 rest hc]
        have hks : k < (refStates sys initial (t0 :: rest)).length := by
          rw [hlen2]
          exact hk
        rw [List.getD_eq_getElem _ 0 (by rw [List.length_map]; exact hks),
          List.getElem_map, List.getD_eq_getElem _ [] hks]
      rw [htraj (j + 1) h2, htraj j hj2]
      have hstep := statesFrom_getD_succ sys rest (state0 sys initial) t0 j
        (by rw [← hform, hlen2]; exact h2)
      rw [hform, hstep]
      unfold nextState
      rw [dgetD_map_self hc]
      have hts : trajStateAt sys (sys.simulate initial (t0 :: rest)) j
          = (refStates sys initial (t0 :: rest)).getD j [] :=
        trajStateAt_eq_refState sys initial t0 rest j hj2
      rw [hts, hform]
      unfold sumRateChange
      congr 1
      ring

/-- Witness for C1 at the example system `A + B → C` over `[0, 1]`,
instantiated at compound `A` and step 1. -/
theorem simulate_matches_forward_euler_witness :
    ∃ traj : List ℚ,
      dlookup (sysW.simulate initW tpW) cA = some traj ∧
      traj.getD 0 0 = dgetD initW cA 0 ∧
      traj.getD 1 0
        = max 0 (traj.getD 0 0 +
            (tpW.getD 1 0 - tpW.getD 0 0) *
            (sysW.reactions.map
              (fun r => ((dgetD r.get_stoichiometry_matrix cA 0 : Int) : ℚ)
                * r.calculate_rate
                    (trajStateAt sysW (sysW.simulate initW tpW) 0))).sum) := by
  obtain ⟨traj, h1, h2, h3⟩ :=
    simulate_matches_forward_euler sysW initW tpW (by decide) (by decide) (by decide)
      cA (by decide)
  exact ⟨traj, h1, h2, h3 1 (by decide) (by decide)⟩

/-- C7: molar-mass computation after construction is deterministic and
idempotent: if the first call returns mass `m` and caches it in the
returned compound state, a second call returns the same `m` (and the same
state) from the cache, and a molar mass supplied at construction is
returned unchanged instead of being recomputed. -/
theorem calculate_molar_mass_idempotent (formula : String) (name : Option String)
    (mm : Option ℚ) {m : ℚ} {c2 : ChemicalCompound}
    (h : (ChemicalCompound.init formula name mm).calculate_molar_mass = .ok (m, c2)) :
    c2.calculate_molar_mass = .ok (m, c2) ∧ c2.molar_mass = some m ∧
      ∀ m0 : ℚ, mm = some m0 → m = m0 := by
  have hcache := calculate_molar_mass_caches _ h
  refine ⟨calculate_molar_mass_cached c2 hcache, hcache, ?_⟩
  intro m0 hm0
  rw [hm0] at h
  rw [calculate_molar_mass_cached (ChemicalCompound.init formula name (some m0)) rfl] at h
  cases h
  rfl

/-- Witness for C7 at formula `H2O` with a supplied molar mass of 18. -/
theorem calculate_molar_mass_idempotent_witness :
    ((ChemicalCompound.init strH2O none (some 18)).calculate_molar_mass
        = Except.ok (18, ChemicalCompound.init strH2O none (some 18)))
    ∧ ((ChemicalCompound.init strH2O none (some 18)).calculate_molar_mass
          = Except.ok (18, ChemicalCompound.init strH2O none (some 18))
        ∧ (ChemicalCompound.init strH2O none (some 18)).molar_mass = some 18
        ∧ ∀ m0 : ℚ, (some (18 : ℚ) : Option ℚ) = some m0 → (18 : ℚ) = m0) :=
  ⟨rfl, calculate_molar_mass_idempotent strH2O none (some 18) rfl⟩

/-- The generic-compound branch of `calculate_molar_mass` in isolation. -/
theorem calculate_generic (c : ChemicalCompound) (hm : c.molar_mass = none)
    (el : String) (hcomp : c.composition = [(el, 1)]) (hlen : el.length = 1)
    (hnone : dlookup atomic_masses el = none) (halpha : pyIsAlpha el = true) :
    c.calculate_molar_mass = .ok (100, { c with molar_mass := some 100 }) := by
  obtain ⟨cf, cn, cmm, ccomp⟩ := c
  simp only at hm hcomp
  subst hm
  subst hcomp
  unfold ChemicalCompound.calculate_molar_mass
  simp only
  rw [if_pos ⟨rfl, hlen, hnone, halpha⟩]

/-- C8: a compound whose formula is a single uppercase letter that is not a
key of the atomic-mass table gets the fixed generic default of exactly
100.0 g/mol from `calculate_molar_mass` instead of failing. -/
theorem generic_compound_default_mass (ch : Char) (name : Option String)
    (hup : ch.isUpper = true)
    (hnone : dlookup atomic_masses (String.singleton ch) = none) :
    ∃ c2, (ChemicalCompound.init (String.singleton ch) name none).calculate_molar_mass
        = .ok (100, c2) := by
  have hparse : parse_formula (String.singleton ch) = [(String.singleton ch, 1)] := by
    unfold parse_formula
    have hdata : (String.singleton ch).data = [ch] := rfl
    rw [hdata, scanFormula_upper_last hup]
    rfl
  exact ⟨_, calculate_generic (ChemicalCompound.init (String.singleton ch) name none)
    rfl (String.singleton ch) hparse rfl hnone (pyIsAlpha_of_upper hup)⟩

/-- The character of the placeholder species `A`. -/
def chA : Char := 'A'

/-- Witness for C8 at the placeholder species `A`. -/
theorem generic_compound_default_mass_witness :
    ∃ c2, (ChemicalCompound.init (String.singleton chA) none none).calculate_molar_mass
        = .ok (100, c2) :=
  generic_compound_default_mass chA none (by decide) (by decide)

/-- C9: for every compound built through the public constructor (whose
composition comes from `_parse_formula`), `calculate_molar_mass` never
raises: every element token the regex produces is purely alphabetic, so the
`ValueError` branch for a non-alphabetic unknown element is unreachable and
the call always returns a mass. -/
theorem calculate_molar_mass_total (formula : String) (name : Option String)
    (mm : Option ℚ) :
    ∃ p, (ChemicalCompound.init formula name mm).calculate_molar_mass = Except.ok p := by
  obtain ⟨m, c2, h, _⟩ := calculate_molar_mass_ok (ChemicalCompound.init formula name mm)
    (fun el hel => parse_formula_keys_alpha formula el hel)
  exact ⟨(m, c2), h⟩

end PyChem
